import Mathlib

/-!
Boolean condition parser of `webanalyzer.go` (`condition.go`)

A shallow embedding of the scanner (`getToken`), the push-back buffer
(`popToken` / `pushToken`), the recursive-descent rules
(`parseVarExpression` … `parseExpression`) and the entry point `Parse`.

Conventions of the embedding.

* A Go `string` is a sequence of bytes; it is modelled as `List Char`, one
  `Char` per byte.  The source only compares bytes with ASCII constants and
  copies slices, so nothing depends on the numeric range of a byte.
* `map[string]bool` is a function `GoString → Option Bool`; the lookup
  `v, ok := m[k]` is `m k` (`none` when `ok` is false, as for every key of a
  nil map).
* `*Parser` methods become functions that take the parser state and return the
  new state next to their Go results.
* A Go pair `(*T, error)` is `Except GoString T`: the error carries its message.
  For the grammar rules `T` is `Option result`, `none` being the Go `nil`
  result returned together with a `nil` error.
* `getTokenChecked` is `getToken` once more with Go's bounds checks on every
  byte access and slice expression; it is used to show that no access panics.
* The grammar rules are mutually recursive and the source puts no bound on
  their recursion, so they take a `fuel : Nat` that bounds the number of
  nested calls and loop iterations; `none` means that the bound was reached
  before the call returned.
-/

namespace Condition

/-- Go strings, byte by byte. -/
abbrev GoString := List Char

/-- The seven `TokenType` constants. -/
inductive TokenType where
  | NOT | AND | OR | LP | RP | VARIABLE | EOF
  deriving DecidableEq, Repr

/-- The string value of each `TokenType` constant (what `%s` prints). -/
def TokenType.str : TokenType → GoString
  | .NOT => "not".toList
  | .AND => "and".toList
  | .OR => "or".toList
  | .LP => "(".toList
  | .RP => ")".toList
  | .VARIABLE => "variable".toList
  | .EOF => "EOF".toList

/-- The constant `AllowChars`. -/
def AllowChars : GoString := "abcdefghijklmnopqrstuvwxyz0123456789_".toList

/-- The struct `Token`; the field `Type` is spelled `Typ`. -/
structure Token where
  Typ : TokenType
  Name : GoString
  Value : Bool
  deriving DecidableEq, Repr

/-- The struct `result`. -/
structure result where
  Name : GoString
  Value : Bool
  deriving DecidableEq, Repr

/-- The struct `Parser`. -/
structure Parser where
  cond : GoString
  symbolTab : GoString → Option Bool
  index : Nat
  backTokens : List Token

/-- The zero value `Parser{}`: empty condition, nil map, index 0, nil slice. -/
def Parser.fresh : Parser := ⟨[], fun _ => none, 0, []⟩

/-- The byte `s[i]` (only evaluated below for `i < len(s)`). -/
def byteAt (s : GoString) (i : Nat) : Char := s.getD i (Char.ofNat 0)

/-- The slice `s[i:j]`. -/
def slice (s : GoString) (i j : Nat) : GoString := (s.drop i).take (j - i)

/-- The call `strings.ContainsRune(AllowChars, rune(b))`. -/
def allowed (b : Char) : Bool := AllowChars.contains b

/-- A token that carries only a type: `&Token{Type: t}`. -/
def Token.ofType (t : TokenType) : Token := ⟨t, [], false⟩

/-- The inner loop of `getToken` (lines 72-74): advance the index while it is
inside the input and points at a byte of `AllowChars`.  The first argument
bounds the number of iterations; `getTokenLoop` passes `len(cond) - index`,
which the loop cannot exceed. -/
def scanName (cond : GoString) : Nat → Nat → Nat
  | 0, i => i
  | n + 1, i =>
    if i < cond.length ∧ allowed (byteAt cond i) then scanName cond n (i + 1) else i

/-- The outer loop of `getToken` (lines 44-84), from index `i`; returns the Go
result and the final index.  The first argument bounds the number of
iterations; `getToken` passes `len(cond) - index`, so that it is `0` only when
the loop condition `index < len(cond)` is false. -/
def getTokenLoop (cond : GoString) (symbolTab : GoString → Option Bool) :
    Nat → Nat → Except GoString Token × Nat
  | 0, i => (.ok (Token.ofType .EOF), i)
  | n + 1, i =>
    if i < cond.length then
      if byteAt cond i = ' ' ∨ byteAt cond i = '\t' then
        getTokenLoop cond symbolTab n (i + 1)
      else if i + 2 < cond.length ∧ slice cond i (i + 2) = "or".toList ∧
          ¬ allowed (byteAt cond (i + 2)) then
        (.ok (Token.ofType .OR), i + 2)
      else if i + 3 < cond.length ∧ slice cond i (i + 3) = "and".toList ∧
          ¬ allowed (byteAt cond (i + 3)) then
        (.ok (Token.ofType .AND), i + 3)
      else if i + 3 < cond.length ∧ slice cond i (i + 3) = "not".toList ∧
          ¬ allowed (byteAt cond (i + 3)) then
        (.ok (Token.ofType .NOT), i + 3)
      else if byteAt cond i = '(' then
        (.ok (Token.ofType .LP), i + 1)
      else if byteAt cond i = ')' then
        (.ok (Token.ofType .RP), i + 1)
      else
        let nameStart := i
        let j := scanName cond (cond.length - i) i
        let name := slice cond nameStart j
        match symbolTab name with
        | some v => (.ok ⟨.VARIABLE, name, v⟩, j)
        | none => (.error (name ++ " does not exists".toList), j)
    else
      (.ok (Token.ofType .EOF), i)

/-- The method `getToken`. -/
def getToken (p : Parser) : Except GoString Token × Parser :=
  let r := getTokenLoop p.cond p.symbolTab (p.cond.length - p.index) p.index
  (r.1, { p with index := r.2 })

/-- The method `popToken`: the first buffered token when the buffer is not
empty (the buffer is left as it is), the next scanned token otherwise. -/
def popToken (p : Parser) : Except GoString Token × Parser :=
  match p.backTokens with
  | t :: _ => (.ok t, p)
  | [] => getToken p

/-- The method `pushToken`: append to the buffer. -/
def pushToken (p : Parser) (token : Token) : Parser :=
  { p with backTokens := p.backTokens ++ [token] }

/-- What a grammar rule hands back: `none` when the fuel ran out, otherwise the
Go pair `(*result, error)` and the parser state. -/
abbrev Outcome := Option (Except GoString (Option result) × Parser)

/-- The method `parseVarExpression`. -/
def parseVarExpression (p : Parser) : Except GoString (Option result) × Parser :=
  match popToken p with
  | (.error err, p) => (.error err, p)
  | (.ok token, p) =>
    match token.Typ with
    | .EOF => (.ok none, p)
    | .VARIABLE => (.ok (some ⟨token.Name, token.Value⟩), p)
    | _ =>
      (.error ("invalid condition, expect VARIABLE, got ".toList ++ token.Name ++
        "(".toList ++ token.Typ.str ++ ")".toList), p)

mutual

/-- The method `parsePrimaryExpression`. -/
def parsePrimaryExpression : Nat → Parser → Outcome
  | 0, _ => none
  | fuel + 1, p =>
    match popToken p with
    | (.error err, p) => some (.error err, p)
    | (.ok token, p) =>
      if token.Typ = .EOF then some (.ok none, p)
      else if token.Typ ≠ .LP then some (parseVarExpression (pushToken p token))
      else
        match parseExpression fuel p with
        | none => none
        | some (.error err, p) => some (.error err, p)
        | some (.ok none, p) => some (.ok none, p)
        | some (.ok (some _), p) =>
          match popToken p with
          | (.error err, p) => some (.error err, p)
          | (.ok token, p) =>
            if token.Typ ≠ .RP then
              some (.error ("invalid condition, expect RP, got ".toList ++ token.Name ++
                "(".toList ++ token.Typ.str ++ ")".toList), p)
            else
              some (.ok (some ⟨"(".toList ++ token.Name ++ ")".toList, token.Value⟩), p)

/-- The method `parseNotExpression`. -/
def parseNotExpression : Nat → Parser → Outcome
  | 0, _ => none
  | fuel + 1, p =>
    match popToken p with
    | (.error err, p) => some (.error err, p)
    | (.ok token, p) =>
      if token.Typ = .EOF then some (.ok none, p)
      else if token.Typ ≠ .NOT then parsePrimaryExpression fuel (pushToken p token)
      else
        match parseNotExpression fuel p with
        | none => none
        | some (.error err, p) => some (.error err, p)
        | some (.ok none, p) => some (.ok none, p)
        | some (.ok (some r1), p) =>
          some (.ok (some ⟨"not ".toList ++ r1.Name, !r1.Value⟩), p)

/-- The `for` loop of `parseAndExpression` (lines 181-203), entered with the
accumulated `r1`. -/
def andLoop : Nat → result → Parser → Outcome
  | 0, _, _ => none
  | fuel + 1, r1, p =>
    match popToken p with
    | (.error err, p) => some (.error err, p)
    | (.ok token, p) =>
      if token.Typ = .EOF then some (.ok (some r1), p)
      else if token.Typ ≠ .AND then some (.ok (some r1), pushToken p token)
      else
        match parseNotExpression fuel p with
        | none => none
        | some (.error err, p) => some (.error err, p)
        | some (.ok none, p) => some (.ok none, p)
        | some (.ok (some r2), p) =>
          andLoop fuel ⟨r1.Name ++ " and ".toList ++ r2.Name, r1.Value && r2.Value⟩ p

/-- The method `parseAndExpression`. -/
def parseAndExpression : Nat → Parser → Outcome
  | 0, _ => none
  | fuel + 1, p =>
    match parseNotExpression fuel p with
    | none => none
    | some (.error err, p) => some (.error err, p)
    | some (.ok none, p) => some (.ok none, p)
    | some (.ok (some r1), p) => andLoop fuel r1 p

/-- The `for` loop of `parseOrExpression` (lines 215-237), entered with the
accumulated `r1`. -/
def orLoop : Nat → result → Parser → Outcome
  | 0, _, _ => none
  | fuel + 1, r1, p =>
    match popToken p with
    | (.error err, p) => some (.error err, p)
    | (.ok token, p) =>
      if token.Typ = .EOF then some (.ok (some r1), p)
      else if token.Typ ≠ .OR then some (.ok (some r1), pushToken p token)
      else
        match parseAndExpression fuel p with
        | none => none
        | some (.error err, p) => some (.error err, p)
        | some (.ok none, p) => some (.ok none, p)
        | some (.ok (some r2), p) =>
          orLoop fuel ⟨r1.Name ++ " or ".toList ++ r2.Name, r1.Value || r2.Value⟩ p

/-- The method `parseOrExpression`. -/
def parseOrExpression : Nat → Parser → Outcome
  | 0, _ => none
  | fuel + 1, p =>
    match parseAndExpression fuel p with
    | none => none
    | some (.error err, p) => some (.error err, p)
    | some (.ok none, p) => some (.ok none, p)
    | some (.ok (some r1), p) => orLoop fuel r1 p

/-- The method `parseExpression`. -/
def parseExpression : Nat → Parser → Outcome
  | 0, _ => none
  | fuel + 1, p => parseOrExpression fuel p

end

/-- The method `Parse`: the Go pair `(bool, error)` (the error as its message,
`none` for `nil`) and the parser state it leaves behind; `none` when the fuel
ran out. -/
def Parse (fuel : Nat) (p : Parser) (cond : GoString) (symbolTab : GoString → Option Bool) :
    Option ((Bool × Option GoString) × Parser) :=
  let p := { p with cond := cond, symbolTab := symbolTab, index := 0 }
  match parseExpression fuel p with
  | none => none
  | some (.error err, p) => some ((false, some err), p)
  | some (.ok none, p) => some ((false, some "invalid condition".toList), p)
  | some (.ok (some result), p) => some ((result.Value, none), p)

/-- The Go pair returned by `Parse`, without the parser state. -/
def ParseResult (fuel : Nat) (p : Parser) (cond : GoString)
    (symbolTab : GoString → Option Bool) : Option (Bool × Option GoString) :=
  (Parse fuel p cond symbolTab).map Prod.fst

/-- The parser state left behind by `Parse` (the receiver itself when the fuel
ran out). -/
def ParseState (fuel : Nat) (p : Parser) (cond : GoString)
    (symbolTab : GoString → Option Bool) : Parser :=
  ((Parse fuel p cond symbolTab).map Prod.snd).getD p

/-- The symbol table of `TestSimple`. -/
def simpleTab : GoString → Option Bool := fun k =>
  if k = "1".toList then some true
  else if k = "2".toList then some false
  else if k = "3".toList then some true
  else if k = "4".toList then some false
  else if k = "name1".toList then some true
  else if k = "name2".toList then some false
  else if k = "name3".toList then some true
  else if k = "name4".toList then some false
  else none

/-- The symbol table of `TestInvalid`. -/
def invalidTab : GoString → Option Bool := fun k =>
  if k = "include space".toList then some false
  else if k = "2".toList then some false
  else if k = "name1".toList then some true
  else if k = "name2".toList then some false
  else none

/-- What `getToken` returns once it has formed the name `name`. -/
def lookupToken (symbolTab : GoString → Option Bool) (name : GoString) : Except GoString Token :=
  match symbolTab name with
  | some v => .ok ⟨.VARIABLE, name, v⟩
  | none => .error (name ++ " does not exists".toList)

/-- The text of `k` copies of `not ` followed by `x`. -/
def nots : Nat → GoString → GoString
  | 0, x => x
  | k + 1, x => "not ".toList ++ nots k x

/-- The boolean `v` negated `k` times. -/
def negate : Nat → Bool → Bool
  | 0, v => v
  | k + 1, v => !(negate k v)

/-- The parser value that `Parse("name1", simpleTab)` leaves behind when it is called on
`Parser{}`. -/
def afterName1 : Parser := ParseState 5 Parser.fresh "name1".toList simpleTab

/-- The parser value that `Parse("not name1", simpleTab)` leaves behind when it is called on
`Parser{}`. -/
def afterNotName1 : Parser := ParseState 6 Parser.fresh "not name1".toList simpleTab

/-- The guard of a keyword case of `getToken` (lines 49-51, 54-56, 59-61), read on the unread
text `s = cond[index:]`: a byte follows the keyword, the text starts with the keyword, and that
byte is not in `AllowChars`. -/
def keywordAt (kw s : GoString) : Bool :=
  decide (kw.length < s.length) && (s.take kw.length == kw) &&
    !allowed (s.getD kw.length (Char.ofNat 0))

/-- A table whose only key is the empty string: `map[string]bool{"": true}`. -/
def emptyKeyTab : GoString → Option Bool := fun k => if k = [] then some true else none

/-- The byte access `s[i]` with Go's bounds check: `none` is the run-time panic
`index out of range`. -/
def byteAtChecked (s : GoString) (i : Nat) : Option Char :=
  if i < s.length then some (byteAt s i) else none

/-- The slice expression `s[i:j]` with Go's bounds check: `none` is the run-time panic
`slice bounds out of range`. -/
def sliceChecked (s : GoString) (i j : Nat) : Option GoString :=
  if i ≤ j ∧ j ≤ s.length then some (slice s i j) else none

/-- The guard of a keyword case of `getToken` at index `i`, with the order of evaluation of
`&&` and the bounds checks: `cond[i:i+k]` is only taken when `i + k < len(cond)` and
`cond[i+k]` only when the slice equals the keyword.  `none` is a panic. -/
def keywordCaseChecked (cond : GoString) (i k : Nat) (kw : GoString) : Option Bool :=
  if i + k < cond.length then
    match sliceChecked cond i (i + k) with
    | none => none
    | some sl =>
      if sl = kw then
        match byteAtChecked cond (i + k) with
        | none => none
        | some b => some (!allowed b)
      else some false
  else some false

/-- The inner loop of `getToken` (lines 72-74) with bounds checks: `cond[index]` is read only
when `index < len(cond)`.  `none` is a panic. -/
def scanNameChecked (cond : GoString) : Nat → Nat → Option Nat
  | 0, i => some i
  | n + 1, i =>
    if i < cond.length then
      match byteAtChecked cond i with
      | none => none
      | some b => if allowed b then scanNameChecked cond n (i + 1) else some i
    else some i

/-- The outer loop of `getToken` (lines 44-84) with every byte access and slice expression
bounds-checked, in the order in which Go evaluates the cases; the reads of `cond[index]` on
lines 46, 64 and 67 use the same index and are one checked read `b0`.  `none` is a panic. -/
def getTokenLoopChecked (cond : GoString) (symbolTab : GoString → Option Bool) :
    Nat → Nat → Option (Except GoString Token × Nat)
  | 0, i => some (.ok (Token.ofType .EOF), i)
  | n + 1, i =>
    if i < cond.length then
      match byteAtChecked cond i with
      | none => none
      | some b0 =>
        if b0 = ' ' ∨ b0 = '\t' then getTokenLoopChecked cond symbolTab n (i + 1)
        else
          match keywordCaseChecked cond i 2 "or".toList with
          | none => none
          | some true => some (.ok (Token.ofType .OR), i + 2)
          | some false =>
            match keywordCaseChecked cond i 3 "and".toList with
            | none => none
            | some true => some (.ok (Token.ofType .AND), i + 3)
            | some false =>
              match keywordCaseChecked cond i 3 "not".toList with
              | none => none
              | some true => some (.ok (Token.ofType .NOT), i + 3)
              | some false =>
                if b0 = '(' then some (.ok (Token.ofType .LP), i + 1)
                else if b0 = ')' then some (.ok (Token.ofType .RP), i + 1)
                else
                  match scanNameChecked cond (cond.length - i) i with
                  | none => none
                  | some j =>
                    match sliceChecked cond i j with
                    | none => none
                    | some name =>
                      match symbolTab name with
                      | some v => some (.ok ⟨.VARIABLE, name, v⟩, j)
                      | none => some (.error (name ++ " does not exists".toList), j)
    else some (.ok (Token.ofType .EOF), i)

/-- The method `getToken` with bounds checks: `none` when some access panics. -/
def getTokenChecked (p : Parser) : Option (Except GoString Token × Parser) :=
  match getTokenLoopChecked p.cond p.symbolTab (p.cond.length - p.index) p.index with
  | none => none
  | some r => some (r.1, { p with index := r.2 })

/-! ## Fuel: more fuel never changes a result -/

theorem fuel_succ (n : Nat) :
    (∀ p r, parsePrimaryExpression n p = some r → parsePrimaryExpression (n + 1) p = some r) ∧
    (∀ p r, parseNotExpression n p = some r → parseNotExpression (n + 1) p = some r) ∧
    (∀ r1 p r, andLoop n r1 p = some r → andLoop (n + 1) r1 p = some r) ∧
    (∀ p r, parseAndExpression n p = some r → parseAndExpression (n + 1) p = some r) ∧
    (∀ r1 p r, orLoop n r1 p = some r → orLoop (n + 1) r1 p = some r) ∧
    (∀ p r, parseOrExpression n p = some r → parseOrExpression (n + 1) p = some r) ∧
    (∀ p r, parseExpression n p = some r → parseExpression (n + 1) p = some r) := by
  induction n with
  | zero =>
    simp [parsePrimaryExpression, parseNotExpression, andLoop, parseAndExpression, orLoop,
      parseOrExpression, parseExpression]
  | succ n ih =>
    obtain ⟨hP, hN, hAL, hA, hOL, hO, hE⟩ := ih
    refine ⟨?_, ?_, ?_, ?_, ?_, ?_, ?_⟩
    · intro p r h
      rw [parsePrimaryExpression] at h ⊢
      rcases hpop : popToken p with ⟨_ | token, p1⟩
      · simpa [hpop] using h
      · simp only [hpop] at h ⊢
        by_cases h1 : token.Typ = .EOF
        · simpa [h1] using h
        · by_cases h2 : token.Typ ≠ .LP
          · simpa [h1, h2] using h
          · simp only [h1, h2, if_false] at h ⊢
            cases hrec : parseExpression n p1 with
            | none => simp [hrec] at h
            | some x => rw [hE _ _ hrec]; rw [hrec] at h; exact h
    · intro p r h
      rw [parseNotExpression] at h ⊢
      rcases hpop : popToken p with ⟨_ | token, p1⟩
      · simpa [hpop] using h
      · simp only [hpop] at h ⊢
        by_cases h1 : token.Typ = .EOF
        · simpa [h1] using h
        · by_cases h2 : token.Typ ≠ .NOT
          · rw [if_neg h1, if_pos h2] at h ⊢
            exact hP _ _ h
          · simp only [h1, h2, if_false] at h ⊢
            cases hrec : parseNotExpression n p1 with
            | none => simp [hrec] at h
            | some x => rw [hN _ _ hrec]; rw [hrec] at h; exact h
    · intro r1 p r h
      rw [andLoop] at h ⊢
      rcases hpop : popToken p with ⟨_ | token, p1⟩
      · simpa [hpop] using h
      · simp only [hpop] at h ⊢
        by_cases h1 : token.Typ = .EOF
        · simpa [h1] using h
        · by_cases h2 : token.Typ ≠ .AND
          · simpa [h1, h2] using h
          · simp only [h1, h2, if_false] at h ⊢
            cases hrec : parseNotExpression n p1 with
            | none => simp [hrec] at h
            | some x =>
              rw [hN _ _ hrec]; rw [hrec] at h
              rcases x with ⟨_ | _ | r2, p2⟩
              · exact h
              · exact h
              · exact hAL _ _ _ h
    · intro p r h
      rw [parseAndExpression] at h ⊢
      cases hrec : parseNotExpression n p with
      | none => simp [hrec] at h
      | some x =>
        rw [hN _ _ hrec]; rw [hrec] at h
        rcases x with ⟨_ | _ | r2, p2⟩
        · exact h
        · exact h
        · exact hAL _ _ _ h
    · intro r1 p r h
      rw [orLoop] at h ⊢
      rcases hpop : popToken p with ⟨_ | token, p1⟩
      · simpa [hpop] using h
      · simp only [hpop] at h ⊢
        by_cases h1 : token.Typ = .EOF
        · simpa [h1] using h
        · by_cases h2 : token.Typ ≠ .OR
          · simpa [h1, h2] using h
          · simp only [h1, h2, if_false] at h ⊢
            cases hrec : parseAndExpression n p1 with
            | none => simp [hrec] at h
            | some x =>
              rw [hA _ _ hrec]; rw [hrec] at h
              rcases x with ⟨_ | _ | r2, p2⟩
              · exact h
              · exact h
              · exact hOL _ _ _ h
    · intro p r h
      rw [parseOrExpression] at h ⊢
      cases hrec : parseAndExpression n p with
      | none => simp [hrec] at h
      | some x =>
        rw [hA _ _ hrec]; rw [hrec] at h
        rcases x with ⟨_ | _ | r2, p2⟩
        · exact h
        · exact h
        · exact hOL _ _ _ h
    · intro p r h
      rw [parseExpression] at h ⊢
      exact hO _ _ h

theorem parseExpression_fuel_add (n k : Nat) (p : Parser)
    (r : Except GoString (Option result) × Parser) (h : parseExpression n p = some r) :
    parseExpression (n + k) p = some r := by
  induction k with
  | zero => exact h
  | succ k ih => exact (fuel_succ (n + k)).2.2.2.2.2.2 _ _ ih

theorem Parse_fuel_add (n k : Nat) (p : Parser) (cond : GoString)
    (symbolTab : GoString → Option Bool) (r : (Bool × Option GoString) × Parser)
    (h : Parse n p cond symbolTab = some r) : Parse (n + k) p cond symbolTab = some r := by
  simp only [Parse] at h ⊢
  cases hrec : parseExpression n { p with cond := cond, symbolTab := symbolTab, index := 0 } with
  | none => simp [hrec] at h
  | some x => rw [parseExpression_fuel_add n k _ _ hrec]; rw [hrec] at h; exact h

theorem ParseResult_fuel_add (n k : Nat) (p : Parser) (cond : GoString)
    (symbolTab : GoString → Option Bool) (out : Bool × Option GoString)
    (h : ParseResult n p cond symbolTab = some out) :
    ParseResult (n + k) p cond symbolTab = some out := by
  unfold ParseResult at h ⊢
  cases hrec : Parse n p cond symbolTab with
  | none => simp [hrec] at h
  | some x => rw [Parse_fuel_add n k _ _ _ _ hrec]; rw [hrec] at h; exact h

/-! ## The push-back buffer -/

theorem popToken_cons (p : Parser) (t : Token) (rest : List Token)
    (h : p.backTokens = t :: rest) : popToken p = (.ok t, p) := by
  simp [popToken, h]

theorem popToken_nil (p : Parser) (h : p.backTokens = []) : popToken p = getToken p := by
  simp [popToken, h]

theorem pushToken_cons (p : Parser) (t tok : Token) (rest : List Token)
    (h : p.backTokens = t :: rest) : (pushToken p tok).backTokens = t :: (rest ++ [tok]) := by
  simp [pushToken, h]

theorem getToken_backTokens (p : Parser) : (getToken p).2.backTokens = p.backTokens := rfl

/-! ## A buffered `(` is never consumed: the rules recurse without end -/

theorem headLP_none (n : Nat) :
    ∀ (p : Parser) (t : Token) (rest : List Token), p.backTokens = t :: rest → t.Typ = .LP →
      parsePrimaryExpression n p = none ∧ parseNotExpression n p = none ∧
      parseAndExpression n p = none ∧ parseOrExpression n p = none ∧
      parseExpression n p = none := by
  induction n with
  | zero =>
    intro p t rest _ _
    simp [parsePrimaryExpression, parseNotExpression, parseAndExpression, parseOrExpression,
      parseExpression]
  | succ n ih =>
    intro p t rest hbt hLP
    obtain ⟨_, hN, hA, hO, hE⟩ := ih p t rest hbt hLP
    obtain ⟨hP', _, _, _, _⟩ := ih (pushToken p t) t (rest ++ [t]) (pushToken_cons p t t rest hbt) hLP
    refine ⟨?_, ?_, ?_, ?_, ?_⟩
    · rw [parsePrimaryExpression]
      simp [popToken_cons p t rest hbt, hLP, hE]
    · rw [parseNotExpression]
      simp [popToken_cons p t rest hbt, hLP, hP']
    · rw [parseAndExpression]
      simp [hN]
    · rw [parseOrExpression]
      simp [hA]
    · rw [parseExpression]
      exact hO

theorem parseNotExpression_first_LP (p : Parser) (tok : Token) (hbt : p.backTokens = [])
    (hget : (getToken p).1 = .ok tok) (hLP : tok.Typ = .LP) (n : Nat) :
    parseNotExpression n p = none := by
  cases n with
  | zero => simp [parseNotExpression]
  | succ n =>
    have hpop : popToken p = (.ok tok, (getToken p).2) := by
      rw [popToken_nil p hbt, ← hget]
    have hbt1 : (pushToken (getToken p).2 tok).backTokens = tok :: [] := by
      simp [pushToken, getToken_backTokens, hbt]
    rw [parseNotExpression]
    simp [hpop, hLP, (headLP_none n _ tok [] hbt1 hLP).1]

theorem Parse_first_LP (p : Parser) (cond : GoString) (symbolTab : GoString → Option Bool)
    (tok : Token) (hbt : p.backTokens = [])
    (hget : (getTokenLoop cond symbolTab cond.length 0).1 = .ok tok) (hLP : tok.Typ = .LP)
    (fuel : Nat) : Parse fuel p cond symbolTab = none := by
  have hN : ∀ n, parseNotExpression n
      { p with cond := cond, symbolTab := symbolTab, index := 0 } = none :=
    fun n => parseNotExpression_first_LP
      { p with cond := cond, symbolTab := symbolTab, index := 0 } tok hbt
      (by simpa [getToken] using hget) hLP n
  have hA : ∀ n, parseAndExpression n
      { p with cond := cond, symbolTab := symbolTab, index := 0 } = none := by
    intro n
    cases n with
    | zero => simp [parseAndExpression]
    | succ n => rw [parseAndExpression]; simp [hN]
  have hO : ∀ n, parseOrExpression n
      { p with cond := cond, symbolTab := symbolTab, index := 0 } = none := by
    intro n
    cases n with
    | zero => simp [parseOrExpression]
    | succ n => rw [parseOrExpression]; simp [hA]
  have hE : ∀ n, parseExpression n
      { p with cond := cond, symbolTab := symbolTab, index := 0 } = none := by
    intro n
    cases n with
    | zero => simp [parseExpression]
    | succ n => rw [parseExpression]; exact hO n
  simp [Parse, hE]

/-! ## The scanner, seen from the unread suffix `cond.drop index` -/

theorem getTokenLoop_paren (cond : GoString) (symbolTab : GoString → Option Bool) :
    (getTokenLoop ('(' :: cond) symbolTab ('(' :: cond).length 0).1 =
      .ok (Token.ofType .LP) := by
  rw [List.length_cons, getTokenLoop]
  simp [byteAt, slice]

theorem byteAt_of_drop (cond s : GoString) (i k : Nat) (h : cond.drop i = s) :
    byteAt cond (i + k) = s.getD k (Char.ofNat 0) := by
  subst h
  simp [byteAt, List.getD_eq_getElem?_getD, List.getElem?_drop]

theorem byteAt_of_drop_zero (cond : GoString) (c : Char) (rest : GoString) (i : Nat)
    (h : cond.drop i = c :: rest) : byteAt cond i = c := by
  simpa using byteAt_of_drop cond (c :: rest) i 0 h

theorem length_of_drop (cond s : GoString) (i : Nat) (h : cond.drop i = s) (hs : s ≠ []) :
    cond.length = i + s.length := by
  subst h
  have hlt : i < cond.length := by
    by_contra hge
    exact hs (List.drop_eq_nil_of_le (Nat.le_of_not_lt hge))
  rw [List.length_drop]
  omega

theorem drop_succ_of_drop (cond : GoString) (c : Char) (rest : GoString) (i : Nat)
    (h : cond.drop i = c :: rest) : cond.drop (i + 1) = rest := by
  have h1 : cond.drop (i + 1) = (cond.drop i).drop 1 := by
    rw [List.drop_drop]
  rw [h1, h]; rfl

theorem drop_add_of_drop (cond s : GoString) (i k : Nat) (h : cond.drop i = s) :
    cond.drop (i + k) = s.drop k := by
  subst h
  rw [List.drop_drop]

theorem slice_of_drop (cond s : GoString) (i k : Nat) (h : cond.drop i = s) :
    slice cond i (i + k) = s.take k := by
  subst h
  simp [slice]

theorem allowed_mem_drop (cond : GoString) (i : Nat) (hall : ∀ c ∈ cond.drop i, allowed c = true)
    (k : Nat) (hk : i + k < cond.length) : allowed (byteAt cond (i + k)) = true := by
  apply hall
  have hk' : k < (cond.drop i).length := by rw [List.length_drop]; omega
  have hb : byteAt cond (i + k) = (cond.drop i)[k] := by
    rw [byteAt_of_drop cond _ i k rfl, List.getD_eq_getElem _ _ hk']
  rw [hb]
  exact List.getElem_mem hk'

theorem scanName_all (cond : GoString) :
    ∀ (n i : Nat), i + n = cond.length → (∀ c ∈ cond.drop i, allowed c = true) →
      scanName cond n i = cond.length := by
  intro n
  induction n with
  | zero => intro i hi _; simpa [scanName] using hi
  | succ n ih =>
    intro i hi hall
    have hlt : i < cond.length := by omega
    have hb : allowed (byteAt cond i) = true := by
      simpa using allowed_mem_drop cond i hall 0 (by simpa using hlt)
    rw [scanName, if_pos ⟨hlt, hb⟩]
    apply ih (i + 1) (by omega)
    intro c hc
    apply hall
    have : cond.drop (i + 1) = (cond.drop i).drop 1 := by
      rw [List.drop_drop]
    rw [this] at hc
    exact List.mem_of_mem_drop hc

theorem getToken_blank (p : Parser) (c : Char) (rest : GoString)
    (h : p.cond.drop p.index = c :: rest) (hc : c = ' ' ∨ c = '\t') :
    getToken p = getToken { p with index := p.index + 1 } := by
  have hlen := length_of_drop p.cond _ p.index h (by simp)
  have hb := byteAt_of_drop_zero p.cond c rest p.index h
  have hfuel : p.cond.length - p.index = (p.cond.length - (p.index + 1)) + 1 := by
    simp at hlen; omega
  have hlt : p.index < p.cond.length := by simp at hlen; omega
  simp only [getToken]
  rw [hfuel, getTokenLoop, if_pos hlt, if_pos (by rw [hb]; exact hc)]

theorem getToken_not (p : Parser) (c : Char) (rest : GoString)
    (h : p.cond.drop p.index = 'n' :: 'o' :: 't' :: c :: rest) (hc : allowed c = false) :
    getToken p = (.ok (Token.ofType .NOT), { p with index := p.index + 3 }) := by
  have hlen := length_of_drop p.cond _ p.index h (by simp)
  have hb0 := byteAt_of_drop p.cond _ p.index 0 h
  have hb3 := byteAt_of_drop p.cond _ p.index 3 h
  have hs2 := slice_of_drop p.cond _ p.index 2 h
  have hs3 := slice_of_drop p.cond _ p.index 3 h
  simp at hlen hb0 hb3 hs2 hs3
  have hfuel : p.cond.length - p.index = (p.cond.length - (p.index + 1)) + 1 := by omega
  have hlt : p.index < p.cond.length := by omega
  have hlt3 : p.index + 3 < p.cond.length := by omega
  simp only [getToken]
  rw [hfuel, getTokenLoop]
  simp [hlt, hlt3, hb0, hb3, hs2, hs3, hc]

theorem allowed_ne (c : Char) (h : allowed c = true) :
    c ≠ ' ' ∧ c ≠ '\t' ∧ c ≠ '(' ∧ c ≠ ')' := by
  refine ⟨?_, ?_, ?_, ?_⟩ <;> (intro hc; subst hc; revert h; decide)

theorem getToken_name (p : Parser) (x : GoString) (h : p.cond.drop p.index = x) (hx : x ≠ [])
    (hall : ∀ c ∈ x, allowed c = true) :
    getToken p = (lookupToken p.symbolTab x, { p with index := p.cond.length }) := by
  have hlen := length_of_drop p.cond _ p.index h hx
  have hall' : ∀ c ∈ p.cond.drop p.index, allowed c = true := by rw [h]; exact hall
  have hpos : 0 < x.length := List.length_pos.mpr hx
  have hlt : p.index < p.cond.length := by omega
  have hfuel : p.cond.length - p.index = (p.cond.length - (p.index + 1)) + 1 := by omega
  have hb0 : allowed (byteAt p.cond p.index) = true := by
    simpa using allowed_mem_drop p.cond p.index hall' 0 (by simpa using hlt)
  obtain ⟨n1, n2, n3, n4⟩ := allowed_ne _ hb0
  have hk2 : ¬ (p.index + 2 < p.cond.length ∧ slice p.cond p.index (p.index + 2) = "or".toList ∧
      ¬ allowed (byteAt p.cond (p.index + 2)) = true) := by
    rintro ⟨h1, _, h3⟩
    exact h3 (allowed_mem_drop p.cond p.index hall' 2 h1)
  have hk3 : ∀ kw : GoString, ¬ (p.index + 3 < p.cond.length ∧
      slice p.cond p.index (p.index + 3) = kw ∧
      ¬ allowed (byteAt p.cond (p.index + 3)) = true) := by
    rintro kw ⟨h1, _, h3⟩
    exact h3 (allowed_mem_drop p.cond p.index hall' 3 h1)
  have hscan : scanName p.cond (p.cond.length - p.index) p.index = p.cond.length :=
    scanName_all p.cond _ _ (by omega) hall'
  have hslice : slice p.cond p.index p.cond.length = x := by
    have : p.cond.length - p.index = x.length := by omega
    simp [slice, h, this]
  simp only [getToken]
  rw [hfuel, getTokenLoop, if_pos hlt, if_neg (by simp [n1, n2]), if_neg hk2, if_neg (hk3 _),
    if_neg (hk3 _), if_neg n3, if_neg n4]
  simp only [hscan, hslice, lookupToken]
  cases p.symbolTab x <;> rfl

theorem getTokenLoop_blank (cond : GoString) (symbolTab : GoString → Option Bool) :
    ∀ (n i : Nat), i + n = cond.length → (∀ c ∈ cond.drop i, c = ' ' ∨ c = '\t') →
      getTokenLoop cond symbolTab n i = (.ok (Token.ofType .EOF), cond.length) := by
  intro n
  induction n with
  | zero => intro i hi _; simp at hi; simp [getTokenLoop, hi]
  | succ n ih =>
    intro i hi hall
    have hlt : i < cond.length := by omega
    have hd : cond.drop i = byteAt cond i :: cond.drop (i + 1) := by
      rw [List.drop_eq_getElem_cons hlt, byteAt, List.getD_eq_getElem _ _ hlt]
    have hb : byteAt cond i = ' ' ∨ byteAt cond i = '\t' := by
      apply hall; rw [hd]; exact List.mem_cons_self _ _
    rw [getTokenLoop, if_pos hlt, if_pos hb]
    apply ih (i + 1) (by omega)
    intro c hc
    apply hall; rw [hd]; exact List.mem_cons_of_mem _ hc

/-! ## The rules when the buffer already holds a token -/

theorem andLoop_head (n : Nat) (r1 : result) (p : Parser) (tok : Token) (rest : List Token)
    (h : p.backTokens = tok :: rest) (hE : tok.Typ ≠ .EOF) (hA : tok.Typ ≠ .AND) :
    andLoop (n + 1) r1 p = some (.ok (some r1), pushToken p tok) := by
  rw [andLoop]
  simp [popToken_cons p tok rest h, hE, hA]

theorem orLoop_head (n : Nat) (r1 : result) (p : Parser) (tok : Token) (rest : List Token)
    (h : p.backTokens = tok :: rest) (hE : tok.Typ ≠ .EOF) (hO : tok.Typ ≠ .OR) :
    orLoop (n + 1) r1 p = some (.ok (some r1), pushToken p tok) := by
  rw [orLoop]
  simp [popToken_cons p tok rest h, hE, hO]

/-- When the first operand leaves a `VARIABLE` token at the head of the buffer, both
loops see that token, push it again and return the operand. -/
theorem parseExpression_of_not (n : Nat) (p p1 : Parser) (r : result) (tok : Token)
    (rest : List Token) (hN : parseNotExpression (n + 1) p = some (.ok (some r), p1))
    (hbt : p1.backTokens = tok :: rest) (hV : tok.Typ = .VARIABLE) :
    parseExpression (n + 4) p =
      some (.ok (some r), pushToken (pushToken p1 tok) tok) := by
  have hE : tok.Typ ≠ .EOF := by simp [hV]
  have hA : tok.Typ ≠ .AND := by simp [hV]
  have hO : tok.Typ ≠ .OR := by simp [hV]
  have hAnd : parseAndExpression (n + 2) p = some (.ok (some r), pushToken p1 tok) := by
    rw [parseAndExpression]
    simp only [hN]
    exact andLoop_head n r p1 tok rest hbt hE hA
  have hOr : parseOrExpression (n + 3) p =
      some (.ok (some r), pushToken (pushToken p1 tok) tok) := by
    rw [parseOrExpression]
    simp only [hAnd]
    exact orLoop_head (n + 1) r _ tok (rest ++ [tok]) (pushToken_cons p1 tok tok rest hbt) hE hO
  rw [parseExpression]
  exact hOr

/-! ## Input that holds no token -/

theorem parseExpression_blank (n : Nat) (p : Parser) (hbt : p.backTokens = [])
    (hidx : p.index = 0) (hall : ∀ c ∈ p.cond, c = ' ' ∨ c = '\t') :
    parseExpression (n + 4) p =
      some (.ok none, { p with index := p.cond.length }) := by
  have hget : getToken p = (.ok (Token.ofType .EOF), { p with index := p.cond.length }) := by
    simp only [getToken]
    rw [getTokenLoop_blank p.cond p.symbolTab _ p.index (by rw [hidx]; simp)
      (by rw [hidx]; simpa using hall)]
  have hN : parseNotExpression (n + 1) p =
      some (.ok none, { p with index := p.cond.length }) := by
    rw [parseNotExpression]
    simp [popToken_nil p hbt, hget, Token.ofType]
  have hA : parseAndExpression (n + 2) p =
      some (.ok none, { p with index := p.cond.length }) := by
    rw [parseAndExpression]; simp only [hN]
  have hO : parseOrExpression (n + 3) p =
      some (.ok none, { p with index := p.cond.length }) := by
    rw [parseOrExpression]; simp only [hA]
  rw [parseExpression]
  exact hO

/-! ## Chains of `not` in front of a variable -/

/-- The scanner reads the same token whether or not one blank precedes it. -/
theorem getToken_optional_blank (p : Parser) (s : GoString)
    (h : p.cond.drop p.index = s ∨ p.cond.drop p.index = ' ' :: s) :
    ∃ i, p.cond.drop i = s ∧ getToken p = getToken { p with index := i } := by
  rcases h with h | h
  · exact ⟨p.index, h, rfl⟩
  · exact ⟨p.index + 1, drop_succ_of_drop _ _ _ _ h, getToken_blank p ' ' s h (Or.inl rfl)⟩

theorem parseNotExpression_nots (x : GoString) (v : Bool) (hx : x ≠ [])
    (hall : ∀ c ∈ x, allowed c = true) :
    ∀ (k : Nat) (p : Parser), p.backTokens = [] → p.symbolTab x = some v →
      (p.cond.drop p.index = nots k x ∨ p.cond.drop p.index = ' ' :: nots k x) →
      ∃ name p1 rest, parseNotExpression (k + 2) p = some (.ok (some ⟨name, negate k v⟩), p1) ∧
        p1.backTokens = ⟨.VARIABLE, x, v⟩ :: rest := by
  intro k
  induction k with
  | zero =>
    intro p hbt htab h
    obtain ⟨i, hi, hget⟩ := getToken_optional_blank p x h
    have hget2 := getToken_name { p with index := i } x hi hx hall
    simp only [lookupToken, htab] at hget2
    rw [← hget] at hget2
    refine ⟨x, pushToken (pushToken { p with index := p.cond.length } ⟨.VARIABLE, x, v⟩)
      ⟨.VARIABLE, x, v⟩, [⟨.VARIABLE, x, v⟩], ?_, ?_⟩
    · rw [parseNotExpression]
      simp only [popToken_nil p hbt, hget2]
      simp [parsePrimaryExpression, popToken, pushToken, parseVarExpression, hbt, negate]
    · simp [pushToken, hbt]
  | succ k ih =>
    intro p hbt htab h
    obtain ⟨i, hi, hget⟩ := getToken_optional_blank p _ h
    have hget2 := getToken_not { p with index := i } ' ' (nots k x) hi (by decide)
    rw [← hget] at hget2
    obtain ⟨name, p1, rest, hrec, hbt1⟩ := ih { p with index := i + 3 } hbt htab
      (Or.inr (by simpa [nots] using drop_add_of_drop p.cond _ i 3 hi))
    refine ⟨"not ".toList ++ name, p1, rest, ?_, hbt1⟩
    rw [parseNotExpression]
    simp only [popToken_nil p hbt, hget2]
    simp [Token.ofType, hrec, negate]

theorem Parse_nots (x : GoString) (v : Bool) (hx : x ≠ []) (hall : ∀ c ∈ x, allowed c = true)
    (symbolTab : GoString → Option Bool) (htab : symbolTab x = some v) (k : Nat) (p : Parser)
    (hbt : p.backTokens = []) :
    ParseResult (k + 5) p (nots k x) symbolTab = some (negate k v, none) := by
  obtain ⟨name, p1, rest, hN, hbt1⟩ := parseNotExpression_nots x v hx hall k
    { p with cond := nots k x, symbolTab := symbolTab, index := 0 } hbt htab (Or.inl rfl)
  have hE := parseExpression_of_not (k + 1) _ p1 _ _ rest hN hbt1 rfl
  simp [ParseResult, Parse, hE]

/-! ## The scanner after leading blanks, and its keyword and default cases -/

theorem getToken_blanks (blanks : GoString) :
    ∀ (p : Parser) (s : GoString), p.cond.drop p.index = blanks ++ s →
      (∀ b ∈ blanks, b = ' ' ∨ b = '\t') →
      getToken p = getToken { p with index := p.index + blanks.length } := by
  induction blanks with
  | nil => intro p s _ _; rfl
  | cons b bs ih =>
    intro p s h hall
    have h1 := getToken_blank p b (bs ++ s) (by simpa using h) (hall b (List.mem_cons_self _ _))
    have h2 := ih { p with index := p.index + 1 } s
      (drop_succ_of_drop p.cond b (bs ++ s) p.index (by simpa using h))
      (fun c hc => hall c (List.mem_cons_of_mem _ hc))
    rw [h1, h2]
    simp [Nat.add_assoc, Nat.add_comm 1]

theorem drop_of_blanks (cond blanks s : GoString) (i : Nat) (h : cond.drop i = blanks ++ s) :
    cond.drop (i + blanks.length) = s := by
  rw [drop_add_of_drop cond _ i blanks.length h]
  simp

theorem keyword_guard (cond s kw : GoString) (i : Nat) (h : cond.drop i = s) (hs : s ≠ []) :
    (i + kw.length < cond.length ∧ slice cond i (i + kw.length) = kw ∧
      ¬ allowed (byteAt cond (i + kw.length)) = true) ↔ keywordAt kw s = true := by
  have hlen := length_of_drop cond s i h hs
  rw [slice_of_drop cond s i kw.length h, byteAt_of_drop cond s i kw.length h, hlen]
  simp [keywordAt, and_assoc]

theorem take_length_takeWhile (f : Char → Bool) (s : GoString) :
    s.take (s.takeWhile f).length = s.takeWhile f := by
  induction s with
  | nil => rfl
  | cons c t ih =>
    by_cases hc : f c = true
    · simp [List.takeWhile_cons, hc, ih]
    · simp [List.takeWhile_cons, hc]

theorem scanName_takeWhile (cond : GoString) :
    ∀ (n i : Nat), cond.length ≤ i + n →
      scanName cond n i = i + ((cond.drop i).takeWhile allowed).length := by
  intro n
  induction n with
  | zero =>
    intro i hi
    have : cond.drop i = [] := List.drop_eq_nil_of_le (by simpa using hi)
    simp [scanName, this]
  | succ n ih =>
    intro i hi
    rw [scanName]
    by_cases hlt : i < cond.length
    · have hd : cond.drop i = byteAt cond i :: cond.drop (i + 1) := by
        rw [List.drop_eq_getElem_cons hlt, byteAt, List.getD_eq_getElem _ _ hlt]
      by_cases hb : allowed (byteAt cond i) = true
      · rw [if_pos ⟨hlt, hb⟩, ih (i + 1) (by omega)]
        conv_rhs => rw [hd]
        simp only [List.takeWhile_cons, hb, if_true, List.length_cons]
        omega
      · rw [if_neg (fun hh => hb hh.2), hd]
        simp [List.takeWhile_cons, hb]
    · rw [if_neg (fun hh => hlt hh.1)]
      have : cond.drop i = [] := List.drop_eq_nil_of_le (Nat.le_of_not_lt hlt)
      simp [this]

/-- Whatever follows the blanks, `getToken` decides on the unread text `c :: t` alone: the three
keyword guards in order, then the two parentheses, then the run of `AllowChars` bytes. -/
theorem getToken_nonblank (p : Parser) (c : Char) (t : GoString)
    (h : p.cond.drop p.index = c :: t) (hc1 : c ≠ ' ') (hc2 : c ≠ '\t') :
    getToken p =
      if keywordAt "or".toList (c :: t) = true then
        (.ok (Token.ofType .OR), { p with index := p.index + 2 })
      else if keywordAt "and".toList (c :: t) = true then
        (.ok (Token.ofType .AND), { p with index := p.index + 3 })
      else if keywordAt "not".toList (c :: t) = true then
        (.ok (Token.ofType .NOT), { p with index := p.index + 3 })
      else if c = '(' then (.ok (Token.ofType .LP), { p with index := p.index + 1 })
      else if c = ')' then (.ok (Token.ofType .RP), { p with index := p.index + 1 })
      else
        (lookupToken p.symbolTab ((c :: t).takeWhile allowed),
          { p with index := p.index + ((c :: t).takeWhile allowed).length }) := by
  have hs : c :: t ≠ [] := by simp
  have hlen := length_of_drop p.cond _ p.index h hs
  have hb0 := byteAt_of_drop_zero p.cond c t p.index h
  have hlt : p.index < p.cond.length := by simp at hlen; omega
  have hfuel : p.cond.length - p.index = (p.cond.length - (p.index + 1)) + 1 := by omega
  have g2 : (p.index + 2 < p.cond.length ∧ slice p.cond p.index (p.index + 2) = "or".toList ∧
      ¬ allowed (byteAt p.cond (p.index + 2)) = true) ↔ keywordAt "or".toList (c :: t) = true :=
    keyword_guard p.cond _ "or".toList p.index h hs
  have g3a : (p.index + 3 < p.cond.length ∧ slice p.cond p.index (p.index + 3) = "and".toList ∧
      ¬ allowed (byteAt p.cond (p.index + 3)) = true) ↔ keywordAt "and".toList (c :: t) = true :=
    keyword_guard p.cond _ "and".toList p.index h hs
  have g3n : (p.index + 3 < p.cond.length ∧ slice p.cond p.index (p.index + 3) = "not".toList ∧
      ¬ allowed (byteAt p.cond (p.index + 3)) = true) ↔ keywordAt "not".toList (c :: t) = true :=
    keyword_guard p.cond _ "not".toList p.index h hs
  have hscan : scanName p.cond (p.cond.length - p.index) p.index =
      p.index + ((c :: t).takeWhile allowed).length := by
    rw [scanName_takeWhile p.cond _ _ (by omega), h]
  have hslice : slice p.cond p.index (p.index + ((c :: t).takeWhile allowed).length) =
      (c :: t).takeWhile allowed := by
    rw [slice_of_drop p.cond _ p.index _ h, take_length_takeWhile]
  simp only [getToken]
  rw [hfuel, getTokenLoop, if_pos hlt, hb0, if_neg (by simp [hc1, hc2])]
  simp only [g2, g3a, g3n, hscan, hslice]
  by_cases k1 : keywordAt "or".toList (c :: t) = true
  · rw [if_pos k1, if_pos k1]
  rw [if_neg k1, if_neg k1]
  by_cases k2 : keywordAt "and".toList (c :: t) = true
  · rw [if_pos k2, if_pos k2]
  rw [if_neg k2, if_neg k2]
  by_cases k3 : keywordAt "not".toList (c :: t) = true
  · rw [if_pos k3, if_pos k3]
  rw [if_neg k3, if_neg k3]
  by_cases k4 : c = '('
  · rw [if_pos k4, if_pos k4]
  rw [if_neg k4, if_neg k4]
  by_cases k5 : c = ')'
  · rw [if_pos k5, if_pos k5]
  rw [if_neg k5, if_neg k5]
  simp only [lookupToken]
  cases p.symbolTab ((c :: t).takeWhile allowed) <;> rfl

theorem keywordAt_head (kw : GoString) (c : Char) (t : GoString) (hkw : ∀ b ∈ kw.head?, allowed b = true)
    (hne : kw ≠ []) (hc : allowed c = false) : keywordAt kw (c :: t) = false := by
  cases kw with
  | nil => exact absurd rfl hne
  | cons k ks =>
    have hk : allowed k = true := hkw k (by simp)
    have hck : c ≠ k := fun e => by rw [e, hk] at hc; exact Bool.noConfusion hc
    simp [keywordAt, hck]

theorem takeWhile_name (x s : GoString) (hall : ∀ c ∈ x, allowed c = true)
    (hs : ∀ c ∈ s.head?, allowed c = false) : (x ++ s).takeWhile allowed = x := by
  rw [List.takeWhile_append_of_pos hall]
  cases s with
  | nil => simp
  | cons c t =>
    have hc : allowed c = false := hs c (by simp)
    simp [List.takeWhile_cons, hc]

theorem keywordAt_takeWhile (kw s : GoString) (hkw : ∀ c ∈ kw, allowed c = true)
    (h : keywordAt kw s = true) : s.takeWhile allowed = kw := by
  simp only [keywordAt, Bool.and_eq_true, decide_eq_true_eq, beq_iff_eq, Bool.not_eq_true'] at h
  obtain ⟨⟨hlen, htake⟩, hna⟩ := h
  have hsplit : s = kw ++ s.drop kw.length := by
    conv_lhs => rw [← List.take_append_drop kw.length s, htake]
  have hdrop : s.drop kw.length = s.getD kw.length (Char.ofNat 0) :: s.drop (kw.length + 1) := by
    rw [List.drop_eq_getElem_cons hlen, List.getD_eq_getElem _ _ hlen]
  rw [hsplit, hdrop]
  exact takeWhile_name kw _ hkw (fun c hc => by
    simp only [List.head?_cons, Option.mem_def, Option.some.injEq] at hc
    rw [← hc]; exact hna)

theorem keywordAt_name (kw x s : GoString) (hkw : ∀ c ∈ kw, allowed c = true)
    (hall : ∀ c ∈ x, allowed c = true) (hs : ∀ c ∈ s.head?, allowed c = false) (hne : x ≠ kw) :
    keywordAt kw (x ++ s) = false := by
  by_contra hk
  have h1 := keywordAt_takeWhile kw (x ++ s) hkw (by simpa using hk)
  rw [takeWhile_name x s hall hs] at h1
  exact hne h1

theorem parseNotExpression_first_variable (n : Nat) (p p1 : Parser) (x : GoString) (v : Bool)
    (hbt : p.backTokens = []) (hget : getToken p = (.ok ⟨.VARIABLE, x, v⟩, p1)) :
    parseNotExpression (n + 2) p =
      some (.ok (some ⟨x, v⟩), pushToken (pushToken p1 ⟨.VARIABLE, x, v⟩) ⟨.VARIABLE, x, v⟩) ∧
    (pushToken (pushToken p1 ⟨.VARIABLE, x, v⟩) ⟨.VARIABLE, x, v⟩).backTokens =
      ⟨.VARIABLE, x, v⟩ :: [⟨.VARIABLE, x, v⟩] := by
  have hbt1 : p1.backTokens = [] := by
    have := getToken_backTokens p
    rw [hget] at this
    simpa [hbt] using this
  constructor
  · rw [parseNotExpression]
    simp only [popToken_nil p hbt, hget]
    simp [parsePrimaryExpression, popToken, pushToken, parseVarExpression, hbt1]
  · simp [pushToken, hbt1]

/-! ## The scan index -/

theorem scanName_bounds (cond : GoString) (i : Nat) (hi : i ≤ cond.length) :
    i ≤ scanName cond (cond.length - i) i ∧ scanName cond (cond.length - i) i ≤ cond.length := by
  rw [scanName_takeWhile cond _ i (by omega)]
  have h1 : ((cond.drop i).takeWhile allowed).length ≤ (cond.drop i).length :=
    (List.takeWhile_sublist _).length_le
  rw [List.length_drop] at h1
  omega

theorem slice_self (cond : GoString) (i : Nat) : slice cond i i = [] := by
  simp [slice]

theorem getTokenLoop_index (cond : GoString) (symbolTab : GoString → Option Bool) :
    ∀ (n i : Nat), i ≤ (getTokenLoop cond symbolTab n i).2 ∧
      ∀ tok, (getTokenLoop cond symbolTab n i).1 = .ok tok → tok.Typ ≠ .EOF →
        (tok.Typ = .VARIABLE → tok.Name ≠ []) → i < (getTokenLoop cond symbolTab n i).2 := by
  intro n
  induction n with
  | zero =>
    intro i
    refine ⟨by simp [getTokenLoop], ?_⟩
    intro tok h hne _
    simp [getTokenLoop] at h
    rw [← h] at hne
    exact absurd rfl hne
  | succ n ih =>
    intro i
    rw [getTokenLoop]
    by_cases hlt : i < cond.length
    swap
    · rw [if_neg hlt]
      refine ⟨Nat.le_refl _, ?_⟩
      intro tok h hne _
      simp at h
      rw [← h] at hne
      exact absurd rfl hne
    rw [if_pos hlt]
    by_cases c1 : byteAt cond i = ' ' ∨ byteAt cond i = '\t'
    · rw [if_pos c1]
      obtain ⟨h1, h2⟩ := ih (i + 1)
      exact ⟨by omega, fun tok h hne hv => by have := h2 tok h hne hv; omega⟩
    rw [if_neg c1]
    split_ifs
    · exact ⟨by simp, fun _ _ _ _ => by simp⟩
    · exact ⟨by simp, fun _ _ _ _ => by simp⟩
    · exact ⟨by simp, fun _ _ _ _ => by simp⟩
    · exact ⟨by simp, fun _ _ _ _ => by simp⟩
    · exact ⟨by simp, fun _ _ _ _ => by simp⟩
    · obtain ⟨hb1, _⟩ := scanName_bounds cond i (Nat.le_of_lt hlt)
      simp only
      cases htab : symbolTab (slice cond i (scanName cond (cond.length - i) i)) with
      | none =>
        refine ⟨hb1, ?_⟩
        intro tok h
        simp at h
      | some v =>
        refine ⟨hb1, ?_⟩
        intro tok h _ hv
        simp only [Except.ok.injEq] at h
        rw [← h] at hv
        have hname := hv rfl
        simp only at hname
        rcases Nat.eq_or_lt_of_le hb1 with heq | hlt2
        · rw [← heq, slice_self] at hname
          exact absurd rfl hname
        · exact hlt2

/-! ## Bounds checks: the checked scanner never panics and agrees with `getToken` -/

theorem byteAtChecked_out_of_range (cond : GoString) (i : Nat) (h : cond.length ≤ i) :
    byteAtChecked cond i = none := by
  simp [byteAtChecked, Nat.not_lt.mpr h]

theorem sliceChecked_out_of_range (cond : GoString) (i j : Nat) (h : j < i ∨ cond.length < j) :
    sliceChecked cond i j = none := by
  have : ¬ (i ≤ j ∧ j ≤ cond.length) := by omega
  simp [sliceChecked, this]

theorem byteAtChecked_of_lt (cond : GoString) (i : Nat) (h : i < cond.length) :
    byteAtChecked cond i = some (byteAt cond i) := by
  simp [byteAtChecked, h]

theorem sliceChecked_of_le (cond : GoString) (i j : Nat) (h1 : i ≤ j) (h2 : j ≤ cond.length) :
    sliceChecked cond i j = some (slice cond i j) := by
  simp [sliceChecked, h1, h2]

theorem keywordCaseChecked_eq (cond : GoString) (i k : Nat) (kw : GoString) :
    keywordCaseChecked cond i k kw =
      some (decide (i + k < cond.length ∧ slice cond i (i + k) = kw ∧
        ¬ allowed (byteAt cond (i + k)) = true)) := by
  unfold keywordCaseChecked
  by_cases h : i + k < cond.length
  · rw [if_pos h, sliceChecked_of_le cond i (i + k) (by omega) (by omega),
      byteAtChecked_of_lt cond (i + k) h]
    by_cases hs : slice cond i (i + k) = kw
    · simp [h, hs]
    · simp [h, hs]
  · simp [h]

theorem scanNameChecked_eq (cond : GoString) :
    ∀ (n i : Nat), scanNameChecked cond n i = some (scanName cond n i) := by
  intro n
  induction n with
  | zero => intro i; rfl
  | succ n ih =>
    intro i
    rw [scanNameChecked, scanName]
    by_cases h : i < cond.length
    · rw [if_pos h, byteAtChecked_of_lt cond i h]
      by_cases hb : allowed (byteAt cond i) = true
      · simp [h, hb, ih]
      · simp [h, hb]
    · simp [h]

theorem getTokenLoopChecked_eq (cond : GoString) (symbolTab : GoString → Option Bool) :
    ∀ (n i : Nat), getTokenLoopChecked cond symbolTab n i =
      some (getTokenLoop cond symbolTab n i) := by
  intro n
  induction n with
  | zero => intro i; rfl
  | succ n ih =>
    intro i
    rw [getTokenLoopChecked, getTokenLoop]
    by_cases hlt : i < cond.length
    swap
    · rw [if_neg hlt, if_neg hlt]
    rw [if_pos hlt, if_pos hlt, byteAtChecked_of_lt cond i hlt]
    simp only
    by_cases c1 : byteAt cond i = ' ' ∨ byteAt cond i = '\t'
    · rw [if_pos c1, if_pos c1, ih]
    rw [if_neg c1, if_neg c1]
    simp only [keywordCaseChecked_eq]
    by_cases k1 : i + 2 < cond.length ∧ slice cond i (i + 2) = "or".toList ∧
        ¬ allowed (byteAt cond (i + 2)) = true
    · rw [if_pos k1, decide_eq_true k1]
    rw [if_neg k1, decide_eq_false k1]
    simp only
    by_cases k2 : i + 3 < cond.length ∧ slice cond i (i + 3) = "and".toList ∧
        ¬ allowed (byteAt cond (i + 3)) = true
    · rw [if_pos k2, decide_eq_true k2]
    rw [if_neg k2, decide_eq_false k2]
    simp only
    by_cases k3 : i + 3 < cond.length ∧ slice cond i (i + 3) = "not".toList ∧
        ¬ allowed (byteAt cond (i + 3)) = true
    · rw [if_pos k3, decide_eq_true k3]
    rw [if_neg k3, decide_eq_false k3]
    simp only
    by_cases k4 : byteAt cond i = '('
    · rw [if_pos k4, if_pos k4]
    rw [if_neg k4, if_neg k4]
    by_cases k5 : byteAt cond i = ')'
    · rw [if_pos k5, if_pos k5]
    rw [if_neg k5, if_neg k5]
    obtain ⟨hb1, hb2⟩ := scanName_bounds cond i (Nat.le_of_lt hlt)
    rw [scanNameChecked_eq]
    simp only
    rw [sliceChecked_of_le cond i _ hb1 hb2]
    simp only
    cases symbolTab (slice cond i (scanName cond (cond.length - i) i)) <;> rfl

/-! ## The claims -/

/-- C1 (fails on the code): on `Parser{}` and the table of `TestSimple` (name1 = true,
name2 = false), `Parse("name1 and name2")` returns `(true, nil)`, not the value `false` of the
conjunction: every `popToken` after the first `pushToken` returns the buffered `name1` again,
so `and name2` is never scanned. -/
theorem C1_and_operand_never_read (fuel : Nat) :
    ParseResult (5 + fuel) Parser.fresh "name1 and name2".toList simpleTab =
      some (true, none) :=
  ParseResult_fuel_add 5 fuel _ _ _ _ (by decide)

/-- C2 (fails on the code): on `Parser{}`, `Parse("((((name1))))")` and `Parse("(name1)")`
return for no amount of fuel (the buffered `(` is popped again and again, each time opening a
new recursive call), and `parsePrimaryExpression` called on `(name1)` with an empty buffer
returns the error `expect RP` rather than the value of the inner expression. -/
theorem C2_parentheses_never_return :
    (∀ fuel, Parse fuel Parser.fresh "((((name1))))".toList simpleTab = none) ∧
    (∀ fuel, Parse fuel Parser.fresh "(name1)".toList simpleTab = none) ∧
    (parsePrimaryExpression 6 ⟨"(name1)".toList, simpleTab, 0, []⟩).map Prod.fst =
      some (.error "invalid condition, expect RP, got name1(variable)".toList) :=
  ⟨fun fuel => Parse_first_LP _ _ _ (Token.ofType .LP) rfl (by rfl) rfl fuel,
   fun fuel => Parse_first_LP _ _ _ (Token.ofType .LP) rfl (by rfl) rfl fuel,
   rfl⟩

/-- C3 (fails on the code): on `Parser{}` and the table of `TestInvalid`,
`Parse("name1 or not_exists_name")` returns `(true, nil)`: the unknown name is never scanned,
so no error is raised. -/
theorem C3_unknown_right_operand_accepted (fuel : Nat) :
    ParseResult (5 + fuel) Parser.fresh "name1 or not_exists_name".toList invalidTab =
      some (true, none) :=
  ParseResult_fuel_add 5 fuel _ _ _ _ (by decide)

/-- C4 (fails on the code): on `Parser{}` and the table of `TestInvalid`, `Parse("name1 or")`,
`Parse("name1 and")` and `Parse("name1 and not")` each return `(true, nil)` instead of an
error. -/
theorem C4_dangling_operator_accepted (fuel : Nat) :
    ParseResult (5 + fuel) Parser.fresh "name1 or".toList invalidTab = some (true, none) ∧
    ParseResult (5 + fuel) Parser.fresh "name1 and".toList invalidTab = some (true, none) ∧
    ParseResult (5 + fuel) Parser.fresh "name1 and not".toList invalidTab = some (true, none) :=
  ⟨ParseResult_fuel_add 5 fuel _ _ _ _ (by decide),
   ParseResult_fuel_add 5 fuel _ _ _ _ (by decide),
   ParseResult_fuel_add 5 fuel _ _ _ _ (by decide)⟩

/-- C5 (fails on the code): on `Parser{}` and the table of `TestInvalid`,
`Parse("name1 name2")` returns `(true, nil)` instead of an error. -/
theorem C5_adjacent_operands_accepted (fuel : Nat) :
    ParseResult (5 + fuel) Parser.fresh "name1 name2".toList invalidTab = some (true, none) :=
  ParseResult_fuel_add 5 fuel _ _ _ _ (by decide)

/-- C6 (fails on the code): on `Parser{}` and the table of `TestInvalid`,
`Parse("(name1 and name2")` and `Parse("()")` return for no amount of fuel, so they return no
error, and `Parse("name1)")` returns `(true, nil)`. -/
theorem C6_malformed_parentheses_not_rejected :
    (∀ fuel, Parse fuel Parser.fresh "(name1 and name2".toList invalidTab = none) ∧
    (∀ fuel, Parse fuel Parser.fresh "()".toList invalidTab = none) ∧
    (∀ fuel, ParseResult (5 + fuel) Parser.fresh "name1)".toList invalidTab =
      some (true, none)) :=
  ⟨fun fuel => Parse_first_LP _ _ _ (Token.ofType .LP) rfl (by rfl) rfl fuel,
   fun fuel => Parse_first_LP _ _ _ (Token.ofType .LP) rfl (by rfl) rfl fuel,
   fun fuel => ParseResult_fuel_add 5 fuel _ _ _ _ (by decide)⟩

/-- C7 (fails on the code): `Parse` leaves `backTokens` as it finds it.  On the parser left
behind by `Parse("name1")` (which returned `(true, nil)`), `Parse("name2")` returns `(true, nil)` where
`Parser{}` returns `(false, nil)`; and `Parse("not name1")` returns `(false, nil)` on `Parser{}` but `(true, nil)`
when it is called a second time on the same parser. -/
theorem C7_buffer_survives_Parse (fuel : Nat) :
    ParseResult (5 + fuel) Parser.fresh "name1".toList simpleTab = some (true, none) ∧
    ParseResult (5 + fuel) Parser.fresh "name2".toList simpleTab = some (false, none) ∧
    ParseResult (5 + fuel) afterName1 "name2".toList simpleTab = some (true, none) ∧
    ParseResult (6 + fuel) Parser.fresh "not name1".toList simpleTab = some (false, none) ∧
    ParseResult (6 + fuel) afterNotName1 "not name1".toList simpleTab = some (true, none) :=
  ⟨ParseResult_fuel_add 5 fuel _ _ _ _ (by decide),
   ParseResult_fuel_add 5 fuel _ _ _ _ (by decide),
   ParseResult_fuel_add 5 fuel _ _ _ _ (by decide),
   ParseResult_fuel_add 6 fuel _ _ _ _ (by decide),
   ParseResult_fuel_add 6 fuel _ _ _ _ (by decide)⟩

/-- C8 (fails on the code): for every table and every `cond` whose first byte is `(`
(such as `(` itself or `(x)`), `Parse` on `Parser{}` returns for no amount of fuel: the
recursion through `parsePrimaryExpression` has no bound, whatever the nesting depth of the
input. -/
theorem C8_Parse_does_not_terminate (symbolTab : GoString → Option Bool) (cond : GoString)
    (fuel : Nat) : Parse fuel Parser.fresh ('(' :: cond) symbolTab = none :=
  Parse_first_LP _ _ _ (Token.ofType .LP) rfl (getTokenLoop_paren cond symbolTab) rfl fuel

/-- C9: for every table and every `cond` made only of spaces and tabs (the empty string
included), `Parse` on `Parser{}` returns `false` and the error `invalid condition`, for every
fuel from 4 on. -/
theorem C9_blank_input_invalid_condition (symbolTab : GoString → Option Bool)
    (cond : GoString) (h : ∀ c ∈ cond, c = ' ' ∨ c = '\t') (fuel : Nat) :
    ParseResult (4 + fuel) Parser.fresh cond symbolTab =
      some (false, some "invalid condition".toList) := by
  apply ParseResult_fuel_add
  simp [ParseResult, Parse,
    parseExpression_blank 0 { Parser.fresh with cond := cond, symbolTab := symbolTab, index := 0 }
      rfl rfl h]

theorem C9_blank_input_witness :
    (∀ c ∈ " \t ".toList, c = ' ' ∨ c = '\t') ∧
    ParseResult (4 + 0) Parser.fresh " \t ".toList simpleTab =
      some (false, some "invalid condition".toList) :=
  ⟨by decide, C9_blank_input_invalid_condition simpleTab " \t ".toList (by decide) 0⟩

/-- C10: for every table, every non-empty `x` over `AllowChars` that is a key of the table
with value `v`, and every `k`, `Parse` on `Parser{}` of `k` copies of `not ` followed by `x`
returns `v` negated `k` times and no error, for every fuel from `k + 5` on. -/
theorem C10_chained_negation (symbolTab : GoString → Option Bool) (x : GoString) (v : Bool)
    (k : Nat) (hx : x ≠ []) (hall : ∀ c ∈ x, allowed c = true)
    (htab : symbolTab x = some v) (fuel : Nat) :
    ParseResult (k + 5 + fuel) Parser.fresh (nots k x) symbolTab = some (negate k v, none) :=
  ParseResult_fuel_add (k + 5) fuel _ _ _ _
    (Parse_nots x v hx hall symbolTab htab k Parser.fresh rfl)

theorem C10_chained_negation_witness :
    "name2".toList ≠ [] ∧ (∀ c ∈ "name2".toList, allowed c = true) ∧
    simpleTab "name2".toList = some false ∧
    ParseResult (3 + 5 + 0) Parser.fresh (nots 3 "name2".toList) simpleTab =
      some (negate 3 false, none) :=
  ⟨by decide, by decide, by decide,
   C10_chained_negation simpleTab "name2".toList false 3 (by decide) (by decide) (by decide) 0⟩

/-- C11: whenever `Parse` returns a non-nil error (whatever the parser state, `cond` and table),
the boolean it returns with it is `false`. -/
theorem C11_error_comes_with_false (fuel : Nat) (p : Parser) (cond : GoString)
    (symbolTab : GoString → Option Bool) (b : Bool) (e : GoString)
    (h : ParseResult fuel p cond symbolTab = some (b, some e)) : b = false := by
  simp only [ParseResult, Parse] at h
  cases hrec : parseExpression fuel { p with cond := cond, symbolTab := symbolTab, index := 0 } with
  | none => simp [hrec] at h
  | some x =>
    rcases x with ⟨_ | _ | r, p1⟩ <;> simp [hrec] at h
    · exact h.1
    · exact h.1

theorem C11_error_comes_with_false_witness :
    ParseResult 5 Parser.fresh "name1 or".toList emptyKeyTab =
      some (false, some "name1 does not exists".toList) ∧ false = false :=
  ⟨by decide, C11_error_comes_with_false 5 Parser.fresh "name1 or".toList emptyKeyTab false
    "name1 does not exists".toList (by decide)⟩

/-- C12 (fails on the code): for every parser with an empty buffer and every token `t`, after
`pushToken(t)` the next `popToken` returns `t` but leaves the buffer holding `t`, and the
`popToken` after that returns `t` again without a call of `getToken` (the index stays where it
was). -/
theorem C12_popToken_keeps_the_token (cond : GoString) (symbolTab : GoString → Option Bool)
    (index : Nat) (t : Token) :
    popToken (pushToken ⟨cond, symbolTab, index, []⟩ t) =
      (.ok t, ⟨cond, symbolTab, index, [t]⟩) ∧
    popToken (popToken (pushToken ⟨cond, symbolTab, index, []⟩ t)).2 =
      (.ok t, ⟨cond, symbolTab, index, [t]⟩) :=
  ⟨rfl, rfl⟩

/-- C13 (fails on the code): `Parse("name1")` on `Parser{}` with the table of `TestSimple`
returns `(true, nil)` and leaves four tokens in `backTokens`. -/
theorem C13_buffer_grows :
    ParseResult 5 Parser.fresh "name1".toList simpleTab = some (true, none) ∧
    (ParseState 5 Parser.fresh "name1".toList simpleTab).backTokens.length = 4 :=
  ⟨by decide, by decide⟩

/-- C14 (counterexample): in `name1 or` the text at index 5 is ` or` and nothing follows the
keyword; `getToken` returns no `OR` token but the error `or does not exists`. -/
theorem C14_keyword_at_end_is_a_name :
    (getToken ⟨"name1 or".toList, simpleTab, 5, []⟩).1 = .error "or does not exists".toList ∧
    (getToken ⟨"name1 or".toList, simpleTab, 5, []⟩).2.index = 8 :=
  ⟨rfl, rfl⟩

/-- C14 (amended): when the unread text is blanks, then `or` (respectively `and`, `not`), then
a byte `c` outside `AllowChars`, `getToken` returns an `OR` (respectively `AND`, `NOT`) token
with no error and moves the index to just past the keyword. -/
theorem C14_keyword_before_other_byte (p : Parser) (blanks kw : GoString) (ty : TokenType)
    (c : Char) (rest : GoString)
    (hkw : (kw, ty) ∈ [("or".toList, TokenType.OR), ("and".toList, TokenType.AND),
      ("not".toList, TokenType.NOT)])
    (hblank : ∀ b ∈ blanks, b = ' ' ∨ b = '\t') (hc : allowed c = false)
    (h : p.cond.drop p.index = blanks ++ (kw ++ c :: rest)) :
    getToken p = (.ok (Token.ofType ty),
      { p with index := p.index + blanks.length + kw.length }) := by
  have hb := getToken_blanks blanks p _ h hblank
  have hd := drop_of_blanks p.cond blanks _ p.index h
  simp only [List.mem_cons, Prod.mk.injEq, List.mem_singleton, List.not_mem_nil, or_false] at hkw
  rcases hkw with ⟨rfl, rfl⟩ | ⟨rfl, rfl⟩ | ⟨rfl, rfl⟩
  · rw [hb, getToken_nonblank { p with index := p.index + blanks.length } 'o' ('r' :: c :: rest)
      hd (by decide) (by decide)]
    simp [keywordAt, hc]
  · rw [hb, getToken_nonblank { p with index := p.index + blanks.length } 'a'
      ('n' :: 'd' :: c :: rest) hd (by decide) (by decide)]
    simp [keywordAt, hc]
  · rw [hb, getToken_nonblank { p with index := p.index + blanks.length } 'n'
      ('o' :: 't' :: c :: rest) hd (by decide) (by decide)]
    simp [keywordAt, hc]

theorem C14_keyword_before_other_byte_witness :
    (("and".toList, TokenType.AND) ∈ [("or".toList, TokenType.OR), ("and".toList, TokenType.AND),
      ("not".toList, TokenType.NOT)]) ∧
    (∀ b ∈ " \t".toList, b = ' ' ∨ b = '\t') ∧ allowed '(' = false ∧
    getToken ⟨"x \tand(y)".toList, simpleTab, 1, []⟩ =
      (.ok (Token.ofType .AND), ⟨"x \tand(y)".toList, simpleTab, 1 + 2 + 3, []⟩) :=
  ⟨by decide, by decide, by decide,
   C14_keyword_before_other_byte ⟨"x \tand(y)".toList, simpleTab, 1, []⟩ " \t".toList
     "and".toList .AND '(' "y)".toList (by decide) (by decide) (by decide) rfl⟩

/-- C15: when the unread text is blanks followed by `c :: t`, where `c` is neither a blank nor a
parenthesis and no keyword guard holds, `getToken` takes as name the longest prefix of `c :: t`
made of `AllowChars` bytes and moves the index to the end of that run; if the name is a key of
the table it returns a `VARIABLE` token with that name and the table's value, otherwise it
returns no token and the error `<name> does not exists`. -/
theorem C15_identifier_scan (p : Parser) (blanks : GoString) (c : Char) (t : GoString)
    (hblank : ∀ b ∈ blanks, b = ' ' ∨ b = '\t')
    (h : p.cond.drop p.index = blanks ++ c :: t)
    (hc : c ≠ ' ' ∧ c ≠ '\t') (hparen : c ≠ '(' ∧ c ≠ ')')
    (hor : keywordAt "or".toList (c :: t) = false)
    (hand : keywordAt "and".toList (c :: t) = false)
    (hnot : keywordAt "not".toList (c :: t) = false) :
    (∀ v, p.symbolTab ((c :: t).takeWhile allowed) = some v →
      getToken p = (.ok ⟨.VARIABLE, (c :: t).takeWhile allowed, v⟩,
        { p with index := p.index + blanks.length + ((c :: t).takeWhile allowed).length })) ∧
    (p.symbolTab ((c :: t).takeWhile allowed) = none →
      getToken p = (.error ((c :: t).takeWhile allowed ++ " does not exists".toList),
        { p with index := p.index + blanks.length + ((c :: t).takeWhile allowed).length })) := by
  have hb := getToken_blanks blanks p _ h hblank
  have hd := drop_of_blanks p.cond blanks _ p.index h
  have hg := getToken_nonblank { p with index := p.index + blanks.length } c t hd hc.1 hc.2
  rw [hor, hand, hnot, if_neg (by simp), if_neg (by simp), if_neg (by simp), if_neg hparen.1,
    if_neg hparen.2] at hg
  rw [hb, hg]
  constructor
  · intro v hv
    simp [lookupToken, hv]
  · intro hv
    simp [lookupToken, hv]

theorem C15_identifier_scan_witness :
    (∀ b ∈ "  ".toList, b = ' ' ∨ b = '\t') ∧
    (("x  name1)".toList).drop 1 = "  ".toList ++ 'n' :: "ame1)".toList) ∧
    ('n' ≠ ' ' ∧ 'n' ≠ '\t') ∧ ('n' ≠ '(' ∧ 'n' ≠ ')') ∧
    keywordAt "or".toList ('n' :: "ame1)".toList) = false ∧
    keywordAt "and".toList ('n' :: "ame1)".toList) = false ∧
    keywordAt "not".toList ('n' :: "ame1)".toList) = false ∧
    simpleTab (('n' :: "ame1)".toList).takeWhile allowed) = some true ∧
    getToken ⟨"x  name1)".toList, simpleTab, 1, []⟩ =
      (.ok ⟨.VARIABLE, ('n' :: "ame1)".toList).takeWhile allowed, true⟩,
        ⟨"x  name1)".toList, simpleTab,
          1 + "  ".toList.length + (('n' :: "ame1)".toList).takeWhile allowed).length, []⟩) :=
  ⟨by decide, by decide, by decide, by decide, by decide, by decide, by decide, by decide,
   (C15_identifier_scan ⟨"x  name1)".toList, simpleTab, 1, []⟩ "  ".toList 'n' "ame1)".toList
     (by decide) (by decide) (by decide) (by decide) (by decide) (by decide) (by decide)).1
     true (by decide)⟩

/-- C16 (counterexample): with the table `{"": true}` and `cond = "A"`, `getToken` returns no
error but a `VARIABLE` token with the empty name and the value `true`. -/
theorem C16_empty_key_no_error :
    (getToken ⟨"A".toList, emptyKeyTab, 0, []⟩).1 = .ok ⟨.VARIABLE, [], true⟩ :=
  rfl

/-- C16 (amended): for every table of which the empty string is not a key, if the first byte
at or after the scan index that is not a space or a tab is outside `AllowChars` and is neither
`(` nor `)`, `getToken` returns the error ` does not exists` (the empty name followed by the
message) and leaves the index at that byte. -/
theorem C16_unrecognised_byte_is_an_error (p : Parser) (blanks : GoString) (c : Char)
    (rest : GoString) (hblank : ∀ b ∈ blanks, b = ' ' ∨ b = '\t')
    (h : p.cond.drop p.index = blanks ++ c :: rest)
    (hc : c ≠ ' ' ∧ c ≠ '\t') (hna : allowed c = false) (hparen : c ≠ '(' ∧ c ≠ ')')
    (hempty : p.symbolTab [] = none) :
    getToken p = (.error " does not exists".toList,
      { p with index := p.index + blanks.length }) := by
  have hb := getToken_blanks blanks p _ h hblank
  have hd := drop_of_blanks p.cond blanks _ p.index h
  have hg := getToken_nonblank { p with index := p.index + blanks.length } c rest hd hc.1 hc.2
  have htw : (c :: rest).takeWhile allowed = [] := by simp [List.takeWhile_cons, hna]
  rw [keywordAt_head "or".toList c rest (by decide) (by decide) hna,
    keywordAt_head "and".toList c rest (by decide) (by decide) hna,
    keywordAt_head "not".toList c rest (by decide) (by decide) hna,
    if_neg (by simp), if_neg (by simp), if_neg (by simp), if_neg hparen.1, if_neg hparen.2,
    htw] at hg
  rw [hb, hg]
  simp [lookupToken, hempty]

theorem C16_unrecognised_byte_witness :
    (∀ b ∈ " ".toList, b = ' ' ∨ b = '\t') ∧
    (("name1 &name2".toList).drop 5 = " ".toList ++ '&' :: "name2".toList) ∧
    ('&' ≠ ' ' ∧ '&' ≠ '\t') ∧ allowed '&' = false ∧ ('&' ≠ '(' ∧ '&' ≠ ')') ∧
    simpleTab [] = none ∧
    getToken ⟨"name1 &name2".toList, simpleTab, 5, []⟩ =
      (.error " does not exists".toList,
        ⟨"name1 &name2".toList, simpleTab, 5 + " ".toList.length, []⟩) :=
  ⟨by decide, by decide, by decide, by decide, by decide, by decide,
   C16_unrecognised_byte_is_an_error ⟨"name1 &name2".toList, simpleTab, 5, []⟩ " ".toList '&'
     "name2".toList (by decide) (by decide) (by decide) (by decide) (by decide) (by decide)⟩

/-- C17 (counterexample): with the table `{"": true}` and `cond = "&"` at index 0, `getToken`
returns a `VARIABLE` token, which is not `EOF`, and the index after the call is still 0. -/
theorem C17_index_can_stay :
    (getToken ⟨"&".toList, emptyKeyTab, 0, []⟩).1 = .ok ⟨.VARIABLE, [], true⟩ ∧
    (getToken ⟨"&".toList, emptyKeyTab, 0, []⟩).2.index = 0 :=
  ⟨rfl, rfl⟩

/-- C17 (amended): for every parser state and table, `getToken` never decreases the index, and
whenever it returns a token other than `EOF` that is not a `VARIABLE` token with the empty name
(in particular whenever the empty string is not a key of the table), the index after the call
is strictly greater than before. -/
theorem C17_index_moves_forward (p : Parser) :
    p.index ≤ (getToken p).2.index ∧
    (∀ tok, (getToken p).1 = .ok tok → tok.Typ ≠ .EOF →
      (tok.Typ = .VARIABLE → tok.Name ≠ []) → p.index < (getToken p).2.index) ∧
    (∀ tok, (getToken p).1 = .ok tok → tok.Typ ≠ .EOF → p.symbolTab [] = none →
      p.index < (getToken p).2.index) := by
  obtain ⟨h1, h2⟩ := getTokenLoop_index p.cond p.symbolTab (p.cond.length - p.index) p.index
  refine ⟨h1, h2, ?_⟩
  intro tok htok hne hempty
  by_contra hlt
  have hname : ¬ (tok.Typ = .VARIABLE → tok.Name ≠ []) := fun hv => hlt (h2 tok htok hne hv)
  have hV : tok.Typ = .VARIABLE := by
    by_contra hV
    exact hname (fun h => absurd h hV)
  have hN : tok.Name = [] := by
    by_contra hN
    exact hname (fun _ => hN)
  have hidx : (getToken p).2.index = p.index := Nat.le_antisymm (Nat.le_of_not_lt hlt) h1
  by_cases hi : p.index < p.cond.length
  swap
  · have hfuel : p.cond.length - p.index = 0 := by omega
    simp only [getToken, hfuel, getTokenLoop] at htok
    simp only [Except.ok.injEq] at htok
    rw [← htok] at hne
    exact hne rfl
  · have hd : p.cond.drop p.index = byteAt p.cond p.index :: p.cond.drop (p.index + 1) := by
      rw [List.drop_eq_getElem_cons hi, byteAt, List.getD_eq_getElem _ _ hi]
    by_cases hb : byteAt p.cond p.index = ' ' ∨ byteAt p.cond p.index = '\t'
    · have hg := getToken_blank p _ _ hd hb
      have := (getTokenLoop_index p.cond p.symbolTab (p.cond.length - (p.index + 1))
        (p.index + 1)).1
      rw [hg] at hidx
      simp only [getToken] at hidx
      omega
    · have hg := getToken_nonblank p _ _ hd (fun e => hb (Or.inl e)) (fun e => hb (Or.inr e))
      rw [hg] at htok hidx
      split_ifs at htok hidx with k1 k2 k3 k4 k5
      · simp at hidx
      · simp at hidx
      · simp at hidx
      · simp at hidx
      · simp at hidx
      · simp only [lookupToken] at htok
        cases htab : p.symbolTab (List.takeWhile allowed
            (byteAt p.cond p.index :: p.cond.drop (p.index + 1))) with
        | none => simp [htab] at htok
        | some v =>
          simp only [htab, Except.ok.injEq] at htok
          rw [← htok] at hN
          simp only at hN
          rw [hN, hempty] at htab
          exact Option.noConfusion htab

theorem C17_index_moves_forward_witness :
    (getToken ⟨"a or b".toList, simpleTab, 1, []⟩).1 = .ok (Token.ofType .OR) ∧
    (Token.ofType .OR).Typ ≠ .EOF ∧ simpleTab [] = none ∧
    1 < (getToken ⟨"a or b".toList, simpleTab, 1, []⟩).2.index :=
  ⟨rfl, by decide, by decide,
   (C17_index_moves_forward ⟨"a or b".toList, simpleTab, 1, []⟩).2.2 (Token.ofType .OR) rfl
     (by decide) (by decide)⟩

/-- C18: if the scan index is inside the input (`index ≤ len(cond)`) and every byte from it to
the end is a space or a tab (also when none remains), `getToken` returns an `EOF` token and no
error and leaves the index at `len(cond)`; the state it leaves is a fixed point, so each of the
later `getToken` calls returns `EOF` again. -/
theorem C18_end_of_input (p : Parser) (hidx : p.index ≤ p.cond.length)
    (hall : ∀ c ∈ p.cond.drop p.index, c = ' ' ∨ c = '\t') :
    getToken p = (.ok (Token.ofType .EOF), { p with index := p.cond.length }) ∧
    ∀ k : Nat, getToken ((fun q => (getToken q).2)^[k] { p with index := p.cond.length }) =
      (.ok (Token.ofType .EOF), { p with index := p.cond.length }) := by
  have hfix : getToken { p with index := p.cond.length } =
      (.ok (Token.ofType .EOF), { p with index := p.cond.length }) := by
    simp [getToken, getTokenLoop]
  constructor
  · simp only [getToken]
    rw [getTokenLoop_blank p.cond p.symbolTab _ p.index (by omega) hall]
  · intro k
    have hk : (fun q => (getToken q).2)^[k] { p with index := p.cond.length } =
        { p with index := p.cond.length } := by
      apply Function.iterate_fixed
      simp only [hfix]
    rw [hk, hfix]

theorem C18_end_of_input_witness :
    (5 ≤ "name1 \t ".toList.length) ∧
    (∀ c ∈ ("name1 \t ".toList).drop 5, c = ' ' ∨ c = '\t') ∧
    getToken ⟨"name1 \t ".toList, simpleTab, 5, []⟩ =
      (.ok (Token.ofType .EOF), ⟨"name1 \t ".toList, simpleTab, "name1 \t ".toList.length, []⟩) :=
  ⟨by decide, by decide,
   (C18_end_of_input ⟨"name1 \t ".toList, simpleTab, 5, []⟩ (by decide) (by decide)).1⟩

/-- C19: for every table, every key `x` of the table that is a non-empty string over
`AllowChars` other than `or`, `and`, `not`, and every `s` that is empty or begins with a byte
outside `AllowChars`, `Parse(x ++ s)` on `Parser{}` returns the table's value of `x` and no
error, for every fuel from 5 on. -/
theorem C19_rest_of_input_ignored (symbolTab : GoString → Option Bool) (x s : GoString)
    (v : Bool) (hx : x ≠ []) (hall : ∀ c ∈ x, allowed c = true)
    (hkw : x ≠ "or".toList ∧ x ≠ "and".toList ∧ x ≠ "not".toList)
    (hs : ∀ c ∈ s.head?, allowed c = false) (htab : symbolTab x = some v) (fuel : Nat) :
    ParseResult (5 + fuel) Parser.fresh (x ++ s) symbolTab = some (v, none) := by
  apply ParseResult_fuel_add
  cases x with
  | nil => exact absurd rfl hx
  | cons c t =>
    have hc : allowed c = true := hall c (List.mem_cons_self _ _)
    obtain ⟨n1, n2, n3, n4⟩ := allowed_ne c hc
    have hg := getToken_nonblank ⟨c :: t ++ s, symbolTab, 0, []⟩ c (t ++ s) rfl n1 n2
    have e : c :: (t ++ s) = (c :: t) ++ s := rfl
    rw [e, keywordAt_name "or".toList _ s (by decide) hall hs hkw.1,
      keywordAt_name "and".toList _ s (by decide) hall hs hkw.2.1,
      keywordAt_name "not".toList _ s (by decide) hall hs hkw.2.2,
      if_neg (by simp), if_neg (by simp), if_neg (by simp), if_neg n3, if_neg n4,
      takeWhile_name _ s hall hs] at hg
    simp only [lookupToken, htab] at hg
    obtain ⟨hN, hbt⟩ := parseNotExpression_first_variable 0 _ _ (c :: t) v rfl hg
    have hE := parseExpression_of_not 1 _ _ _ _ _ hN hbt rfl
    simp only [ParseResult, Parse]
    have e2 : ({ Parser.fresh with cond := c :: t ++ s, symbolTab := symbolTab, index := 0 } :
        Parser) = ⟨c :: t ++ s, symbolTab, 0, []⟩ := rfl
    rw [e2, hE]
    rfl

theorem C19_rest_of_input_ignored_witness :
    "name2".toList ≠ [] ∧ (∀ c ∈ "name2".toList, allowed c = true) ∧
    ("name2".toList ≠ "or".toList ∧ "name2".toList ≠ "and".toList ∧
      "name2".toList ≠ "not".toList) ∧
    (∀ c ∈ (" or (name1 &&".toList).head?, allowed c = false) ∧
    simpleTab "name2".toList = some false ∧
    ParseResult (5 + 0) Parser.fresh ("name2".toList ++ " or (name1 &&".toList) simpleTab =
      some (false, none) :=
  ⟨by decide, by decide, by decide, by decide, by decide,
   C19_rest_of_input_ignored simpleTab "name2".toList " or (name1 &&".toList false (by decide)
     (by decide) (by decide) (by decide) (by decide) 0⟩

/-- C20: for every parser state (whatever the scan index and the table, the nil map included),
`getToken` with bounds checks on each byte access `cond[i]` and each slice `cond[i:j]` never
panics and returns what `getToken` returns: every index it reads is below `len(cond)` and every
slice it takes has `i ≤ j ≤ len(cond)`. -/
theorem C20_getToken_in_bounds (p : Parser) : getTokenChecked p = some (getToken p) := by
  simp only [getTokenChecked, getToken, getTokenLoopChecked_eq]

end Condition
